import Mathlib

/-
Verification of the BellmanFord repository (distributed distance-vector
routing simulation).  The Python sources under src/ are shallowly embedded:

  * Python float costs become `Cost`: a fraction (`Frac`, kept
    unnormalized, denominator positive by construction) or +infinity
    (`math.inf`).  The program only ever compares, adds and zero-tests
    costs, so every operation the code performs is embedded by the
    value-level operations `Cost.add`, `Cost.lt`, `Cost.isZero` — exactly
    the semantics of the float operations it runs.
  * Python dicts (`HopsMap`, the network registry, the parsed link dict)
    become insertion-ordered association lists; dict assignment replaces an
    existing key in place and appends a fresh key at the end, exactly as
    CPython dicts behave.
  * Code that can raise becomes `Except`: `KeyError` for dict lookups,
    `ValueError` for `HopInfo.parse_str`, tuple-unpack errors and
    `_hop_from`.
  * The Python str methods the parser uses (`strip`, `split(sep)`,
    slicing) are modelled by the `py`-prefixed helpers over the string's
    character list.
  * `Node.update_table` is embedded as `update_table`: the routing table is
    threaded explicitly, the shared registry is a read-only parameter
    (matching the manager-dict semantics of main.py, where `network[k]`
    returns the published copy of a node and local mutations of
    `proxy.map` are not visible through the registry until the final
    republish), and the `edited` flag is returned instead of triggering
    the recursive `send_packets` re-broadcast, which is the driver loop
    around the relaxation step.
-/

abbrev NodeId := String

/-- An unnormalized fraction `num / (den1 + 1)`: the denominator is
positive by construction.  Python float values are compared by value, so
all operations below are value-level (cross-multiplication), never
representation-level. -/
structure Frac where
  num : ℤ
  den1 : ℕ
deriving DecidableEq

/-- The (positive) denominator. -/
def Frac.den (f : Frac) : ℕ := f.den1 + 1

/-- Exact fraction addition. -/
def Frac.add (a b : Frac) : Frac :=
  ⟨a.num * (b.den : ℤ) + b.num * (a.den : ℤ), a.den1 * b.den1 + a.den1 + b.den1⟩

/-- Value-level strict comparison. -/
def Frac.blt (a b : Frac) : Bool :=
  decide (a.num * (b.den : ℤ) < b.num * (a.den : ℤ))

/-- Value-level non-strict comparison. -/
def Frac.ble (a b : Frac) : Bool :=
  decide (a.num * (b.den : ℤ) ≤ b.num * (a.den : ℤ))

/-- Value-level equality test. -/
def Frac.beq (a b : Frac) : Bool :=
  decide (a.num * (b.den : ℤ) = b.num * (a.den : ℤ))

/-- Cost of a path: a finite value (Python float) or +infinity
(`math.inf`). -/
inductive Cost where
  | fin : Frac → Cost
  | inf : Cost
deriving DecidableEq

/-- Python float addition on the values the program builds: anything plus
infinity is infinity. -/
def Cost.add : Cost → Cost → Cost
  | Cost.fin a, Cost.fin b => Cost.fin (a.add b)
  | _, _ => Cost.inf

/-- Python `<` on costs. -/
def Cost.lt : Cost → Cost → Bool
  | Cost.fin a, Cost.fin b => a.blt b
  | Cost.fin _, Cost.inf => true
  | Cost.inf, _ => false

/-- Python `<=` on costs. -/
def Cost.le : Cost → Cost → Bool
  | Cost.fin a, Cost.fin b => a.ble b
  | Cost.inf, Cost.fin _ => false
  | _, Cost.inf => true

/-- Python `==` on costs (value equality). -/
def Cost.beq : Cost → Cost → Bool
  | Cost.fin a, Cost.fin b => a.beq b
  | Cost.inf, Cost.inf => true
  | _, _ => false

/-- Python truthiness test `not c` on a float: true exactly on zero. -/
def Cost.isZero : Cost → Bool
  | Cost.fin a => decide (a.num = 0)
  | Cost.inf => false

/-- The cost written `n.0` in the sources: the integer `n` as a Cost. -/
def intCost (n : ℤ) : Cost := Cost.fin ⟨n, 0⟩

/-- hop_info.py: `HopInfo` — a (next hop, best distance) pair.  The
dataclass performs no validation of any kind on its fields. -/
structure HopInfo where
  next_hop : NodeId
  best_distance : Cost
deriving DecidableEq

/-- Python's builtin ValueError, as raised by the repository: tuple
unpacking of a split with the wrong number of fields, `float()` on a
non-numeric string, and the explicit raise in `_hop_from`. -/
inductive ValueError where
  | unpack : Nat → ValueError
  | notFloat : String → ValueError
  | nodeNotInList : NodeId → ValueError
deriving DecidableEq

/-- Python's builtin KeyError (dict lookup of an absent key), carrying the
missing key. -/
inductive KeyError where
  | mk : NodeId → KeyError
deriving DecidableEq

/-- hops_map.py: `HopsMap` is a dict destination → HopInfo; embedded as an
insertion-ordered association list with unique keys. -/
abbrev HopsMap := List (NodeId × HopInfo)

/-- Dict lookup `m[k]` (the successful case): first entry with the key. -/
def HopsMap.find? : HopsMap → NodeId → Option HopInfo
  | [], _ => none
  | (k', v) :: rest, k => if k' = k then some v else HopsMap.find? rest k

/-- Dict assignment `m[k] = v`: replace in place when the key is present,
append at the end when it is absent (CPython dict semantics). -/
def HopsMap.set : HopsMap → NodeId → HopInfo → HopsMap
  | [], k, v => [(k, v)]
  | (k', v') :: rest, k, v =>
      if k' = k then (k, v) :: rest else (k', v') :: HopsMap.set rest k v

/-- Dict key iteration order. -/
def HopsMap.keys (m : HopsMap) : List NodeId := m.map Prod.fst

/-- hops_map.py: `HopsMap.distance_to` — `self[node_name].best_distance`;
raises KeyError when the destination is absent. -/
def HopsMap.distance_to (m : HopsMap) (node_name : NodeId) : Except KeyError Cost :=
  match HopsMap.find? m node_name with
  | some h => Except.ok h.best_distance
  | none => Except.error (KeyError.mk node_name)

/-- hops_map.py: `HopsMap.pass_through` — `self[node_name].next_hop`;
raises KeyError when the destination is absent. -/
def HopsMap.pass_through (m : HopsMap) (node_name : NodeId) : Except KeyError NodeId :=
  match HopsMap.find? m node_name with
  | some h => Except.ok h.next_hop
  | none => Except.error (KeyError.mk node_name)

/-- Python `str.strip()`: remove whitespace from both ends. -/
def pyStrip (s : String) : String :=
  ⟨(((s.data.dropWhile Char.isWhitespace).reverse.dropWhile Char.isWhitespace).reverse)⟩

/-- Worker for `pySplit`: `cur` is the current field, reversed. -/
def pySplitGo (sep : Char) (cur : List Char) : List Char → List String
  | [] => [⟨cur.reverse⟩]
  | c :: rest =>
      if c = sep then ⟨cur.reverse⟩ :: pySplitGo sep [] rest
      else pySplitGo sep (c :: cur) rest

/-- Python `str.split(sep)` with a one-character separator: keeps empty
fields, never drops a field. -/
def pySplit (sep : Char) (s : String) : List String :=
  pySplitGo sep [] s.data

/-- Python slice `s[1:-1]`: drop the first and the last character. -/
def pySlice1m1 (s : String) : String :=
  ⟨(s.data.drop 1).dropLast⟩

/-- Numeral value of a digit list. -/
def digitsVal (l : List Char) : ℕ :=
  l.foldl (fun a c => 10 * a + (c.toNat - 48)) 0

/-- Models Python's builtin `float(s)` on the forms the repository feeds
it: optional surrounding whitespace, an optional sign, then either a
decimal literal (`"10"`, `"2.5"`, `"1."`, `".5"`) or a spelling of
infinity.  Returns `none` where `float()` raises ValueError.  (Negative
infinity is outside the `Cost` model and also mapped to `none`; the
program never parses it.) -/
def parseFloat (s : String) : Option Cost :=
  let t := (pyStrip s).data
  let neg : Bool := match t with
             | c :: _ => c == '-'
             | [] => false
  let body : List Char := match t with
             | c :: rest => if c == '-' || c == '+' then rest else t
             | [] => t
  if (⟨body⟩ : String) = "inf" || (⟨body⟩ : String) = "Inf" || (⟨body⟩ : String) = "INF" ||
     (⟨body⟩ : String) = "infinity" || (⟨body⟩ : String) = "Infinity" then
    if neg then none else some Cost.inf
  else
    match pySplitGo '.' [] body with
    | [ip] =>
        if (ip.data.length != 0) && ip.data.all Char.isDigit then
          some (Cost.fin ⟨(if neg then -1 else 1) * (digitsVal ip.data : ℤ), 0⟩)
        else none
    | [ip, fp] =>
        if (ip.data.length != 0 || fp.data.length != 0) &&
            ip.data.all Char.isDigit && fp.data.all Char.isDigit then
          some (Cost.fin ⟨(if neg then -1 else 1) *
            ((digitsVal ip.data : ℤ) * ((10 : ℤ) ^ fp.data.length) + (digitsVal fp.data : ℤ)),
            10 ^ fp.data.length - 1⟩)
        else none
    | _ => none

/-- hop_info.py: `HopInfo.parse_str` — strips the first and last character
(`source[1:-1]`), strips whitespace, splits on the comma; tuple unpacking
raises ValueError unless there are exactly two fields, `float()` raises
ValueError on a non-numeric cost field.  No further validation: whatever
`float()` accepts (negative numbers included) is stored as-is. -/
def HopInfo.parse_str (source : String) : Except ValueError HopInfo :=
  match pySplit ',' (pyStrip (pySlice1m1 source)) with
  | [hop, distance] =>
      match parseFloat distance with
      | some c => Except.ok ⟨hop, c⟩
      | none => Except.error (ValueError.notFloat distance)
  | parts => Except.error (ValueError.unpack parts.length)

/-- packet.py: `Packet` — header, a `HopsMap` payload, optional params. -/
structure Packet where
  header : String
  content : HopsMap
  params : Option (List String) := none
deriving DecidableEq

/-- node.py: `Node` — the fields the relaxation logic reads (the queue and
the registry back-reference are modelled as explicit parameters of the
operations that use them). -/
structure Node where
  name : NodeId
  map : HopsMap
deriving DecidableEq

/-- The shared network registry `dict[str, Node]` of main.py. -/
abbrev Network := List (NodeId × Node)

/-- Registry lookup, successful case. -/
def netFind? : Network → NodeId → Option Node
  | [], _ => none
  | (k', v) :: rest, k => if k' = k then some v else netFind? rest k

/-- Registry lookup `network[k]`; raises KeyError when absent. -/
def netLookup (network : Network) (key : NodeId) : Except KeyError Node :=
  match netFind? network key with
  | some node => Except.ok node
  | none => Except.error (KeyError.mk key)

/-- node.py: `_hop_from` — first hop of the list whose `next_hop` equals
the name; raises ValueError when no hop matches. -/
def _hop_from (_name : NodeId) (_hops : List HopInfo) : Except ValueError HopInfo :=
  match _hops.find? (fun hop => hop.next_hop == _name) with
  | some hop => Except.ok hop
  | none => Except.error (ValueError.nodeNotInList _name)

/-- node.py: the dict comprehension of `Node.from_links`,
`{hop.next_hop: _hop_from(hop.next_hop, hops) for hop in hops}`, iterated
left to right with dict-assignment semantics; `full` is the fixed hops
list that `_hop_from` searches. -/
def hops_map_insert (full : List HopInfo) (m : HopsMap) :
    List HopInfo → Except ValueError HopsMap
  | [] => Except.ok m
  | hop :: rest =>
      match _hop_from hop.next_hop full with
      | Except.ok v => hops_map_insert full (HopsMap.set m hop.next_hop v) rest
      | Except.error e => Except.error e

/-- The routing table `Node.from_links` builds for one node from its hops
list. -/
def hops_map_of (hops : List HopInfo) : Except ValueError HopsMap :=
  hops_map_insert hops [] hops

/-- node.py: `Node.from_links` — one `Node` per entry of the parsed links
dict, in order, each with the comprehension-built table. -/
def from_links : List (NodeId × List HopInfo) → Except ValueError (List Node)
  | [] => Except.ok []
  | (name, hops) :: rest =>
      match hops_map_of hops with
      | Except.error e => Except.error e
      | Except.ok m =>
          match from_links rest with
          | Except.error e => Except.error e
          | Except.ok nodes => Except.ok (⟨name, m⟩ :: nodes)

/-- parse_links.py: the handling of one line —
`line.strip().split(" ")`, pattern `case name, *links if links`, seeding
`[HopInfo(name, 0.0)] + [HopInfo.parse_str(link) for link in links]`;
non-matching lines are ignored (`ok none`). -/
def parse_line (line : String) : Except ValueError (Option (NodeId × List HopInfo)) :=
  match pySplit ' ' (pyStrip line) with
  | name :: links =>
      if links.isEmpty then Except.ok none
      else
        match links.mapM HopInfo.parse_str with
        | Except.ok hops => Except.ok (some (name, ⟨name, intCost 0⟩ :: hops))
        | Except.error e => Except.error e
  | [] => Except.ok none

/-- Dict assignment for the parsed-links dict `matrices[name] = matrix`. -/
def linksSet : List (NodeId × List HopInfo) → NodeId → List HopInfo →
    List (NodeId × List HopInfo)
  | [], k, v => [(k, v)]
  | (k', v') :: rest, k, v =>
      if k' = k then (k, v) :: rest else (k', v') :: linksSet rest k v

/-- parse_links.py: `parse_links` over the lines of the file. -/
def parse_links_go (acc : List (NodeId × List HopInfo)) :
    List String → Except ValueError (List (NodeId × List HopInfo))
  | [] => Except.ok acc
  | line :: rest =>
      match parse_line line with
      | Except.error e => Except.error e
      | Except.ok none => parse_links_go acc rest
      | Except.ok (some (name, matrix)) => parse_links_go (linksSet acc name matrix) rest

/-- parse_links.py: `parse_links`, the file given as its list of lines. -/
def parse_links (lines : List String) : Except ValueError (List (NodeId × List HopInfo)) :=
  parse_links_go [] lines

/-- node.py: `Node.neighbours` — every registry value whose name differs
from the node's own name, in registry order. -/
def neighbours (self : Node) (network : Network) : List Node :=
  (network.map Prod.snd).filter (fun node => self.name ≠ node.name)

/-- node.py: the loop body of `Node.normalised` — insert `(name, inf)` for
a neighbour name not already present in the map (`if node.name not in
self.map`). -/
def normStep (m : HopsMap) (node : Node) : HopsMap :=
  match HopsMap.find? m node.name with
  | some _ => m
  | none => HopsMap.set m node.name ⟨node.name, Cost.inf⟩

/-- node.py: `Node.normalised`. -/
def normalised (self : Node) (network : Network) : Node :=
  ⟨self.name, (neighbours self network).foldl normStep self.map⟩

/-- node.py lines 172–199: the body of the inner `for node in
neighbour_table` loop of `Node.update_table`, for one via candidate `n`.
`current` is the `current_distance` read at the head of the destination's
iteration; the state is (working map, edited flag).  Evaluation order
follows the source: registry lookup of the via node, local distance to it,
the via node's own distance to the destination (all three can raise
KeyError), then the zero-cost skip (`if not midway_to_node: continue`),
then the strict comparison, and only inside the update the registry
lookup of the destination and the `pass_through(midway.name)` lookup.
The source computes `new_distance` once before the skip test; the sum is
pure, so writing it inline at its two use sites is meaning-preserving. -/
def relaxVia (network : Network) (destination : NodeId) (current : Cost)
    (st : HopsMap × Bool) (n : NodeId) : Except KeyError (HopsMap × Bool) :=
  match netLookup network n with
  | Except.error e => Except.error e
  | Except.ok midway =>
    match HopsMap.distance_to st.1 n with
    | Except.error e => Except.error e
    | Except.ok distance_to_midway =>
      match HopsMap.distance_to midway.map destination with
      | Except.error e => Except.error e
      | Except.ok midway_to_node =>
        if Cost.isZero midway_to_node then Except.ok st
        else if Cost.lt (Cost.add distance_to_midway midway_to_node) current then
          match netLookup network destination with
          | Except.error e => Except.error e
          | Except.ok destNode =>
            match HopsMap.pass_through destNode.map midway.name with
            | Except.error e => Except.error e
            | Except.ok hop =>
                Except.ok (HopsMap.set st.1 destination
                  ⟨hop, Cost.add distance_to_midway midway_to_node⟩, true)
        else Except.ok st

/-- The inner loop of `Node.update_table` over the packet's keys. -/
def relaxDest (network : Network) (destination : NodeId) (current : Cost)
    (st : HopsMap × Bool) : List NodeId → Except KeyError (HopsMap × Bool)
  | [] => Except.ok st
  | n :: ns =>
      match relaxVia network destination current st n with
      | Except.error e => Except.error e
      | Except.ok st' => relaxDest network destination current st' ns

/-- The outer loop of `Node.update_table` over the local table's keys.
`current_distance` is read once per destination, before the inner loop,
and never refreshed inside it — exactly as in the source. -/
def relaxAll (network : Network) (pktKeys : List NodeId) (st : HopsMap × Bool) :
    List NodeId → Except KeyError (HopsMap × Bool)
  | [] => Except.ok st
  | d :: ds =>
      match HopsMap.distance_to st.1 d with
      | Except.error e => Except.error e
      | Except.ok current =>
        match relaxDest network d current st pktKeys with
        | Except.error e => Except.error e
        | Except.ok st' => relaxAll network pktKeys st' ds

/-- node.py: `Node.update_table` — one relaxation pass of the received
packet against the local table.  Iterating the key list frozen at entry is
faithful: every assignment targets `destination`, an existing key, so the
dict's key set never changes during the loop.  The final
`self.network[self.name] = proxy` republish and the conditional
`send_packets()` re-broadcast are the driver around this computation; the
returned Bool is the `edited` flag that decides the re-broadcast. -/
def update_table (network : Network) (m : HopsMap) (packet : Packet) :
    Except KeyError (HopsMap × Bool) :=
  relaxAll network (HopsMap.keys packet.content) (m, false) (HopsMap.keys m)

/-- Best distance recorded for a key, as an Option (lookup convenience for
stating hypotheses). -/
def distOf (m : HopsMap) (k : NodeId) : Option Cost :=
  (HopsMap.find? m k).map HopInfo.best_distance

/-- One via candidate is already optimal everywhere: the registry holds
it, the local table reaches it, and for every local destination the
two-leg path through it is no shorter than the recorded distance. -/
def pairOk (network : Network) (m : HopsMap) (n : NodeId) : Bool :=
  match netFind? network n, distOf m n with
  | some midway, some cn =>
      (HopsMap.keys m).all (fun d =>
        match distOf midway.map d, distOf m d with
        | some cd, some c0 => !(Cost.lt (Cost.add cn cd) c0)
        | _, _ => false)
  | _, _ => false

/-- The table already encodes global shortest distances with respect to
every via candidate in the packet's key list. -/
def isFixedPoint (network : Network) (m : HopsMap) (pktKeys : List NodeId) : Bool :=
  pktKeys.all (pairOk network m)

/-- Python object heap for the aliasing question of `dummy_packet`: the
live `HopsMap` objects of the process, addressed by index. -/
structure Store where
  maps : List HopsMap
deriving DecidableEq

/-- Dereference a map object. -/
def Store.readMap (st : Store) (r : Nat) : Option HopsMap :=
  st.maps.get? r

/-- Dict assignment `obj[k] = v` performed on the map object at `r`. -/
def Store.setEntry (st : Store) (r : Nat) (k : NodeId) (v : HopInfo) : Store :=
  match st.maps.get? r with
  | some m => ⟨st.maps.set r (HopsMap.set m k v)⟩
  | none => st

/-- A `Packet` at the object level: the payload field holds a reference
into the store, because `Packet(header, self.map)` stores the object
reference itself. -/
structure PacketObj where
  header : String
  content : Nat
deriving DecidableEq

/-- node.py: `Node.dummy_packet` at the object level —
`Packet(f"Message from: ...", self.map)`: the payload is the sender's own
live table reference; no copy is taken. -/
def dummy_packet (name : NodeId) (time_ns : Nat) (selfMap : Nat) : PacketObj :=
  ⟨"Message from: " ++ name ++ ".\nTime: " ++ toString time_ns ++ "\n", selfMap⟩

/-- Concrete four-node scenario used by several theorems below.  X's table
still records D at distance 10; going through B costs 2+3 = 5 and going
through C costs 1+4 = 5 — two distinct equal-cost improvements. -/
def xmap : HopsMap :=
  [("X", ⟨"X", intCost 0⟩), ("B", ⟨"B", intCost 2⟩),
   ("C", ⟨"C", intCost 1⟩), ("D", ⟨"D", intCost 10⟩)]

def bmap : HopsMap :=
  [("X", ⟨"X", intCost 2⟩), ("B", ⟨"B", intCost 0⟩),
   ("C", ⟨"C", intCost 5⟩), ("D", ⟨"D", intCost 3⟩)]

def cmap : HopsMap :=
  [("X", ⟨"X", intCost 1⟩), ("B", ⟨"B", intCost 5⟩),
   ("C", ⟨"C", intCost 0⟩), ("D", ⟨"D", intCost 4⟩)]

def dmap : HopsMap :=
  [("X", ⟨"X", intCost 10⟩), ("B", ⟨"B", intCost 3⟩),
   ("C", ⟨"C", intCost 4⟩), ("D", ⟨"D", intCost 0⟩)]

def exNet : Network :=
  [("X", ⟨"X", xmap⟩), ("B", ⟨"B", bmap⟩), ("C", ⟨"C", cmap⟩), ("D", ⟨"D", dmap⟩)]

/-- A packet whose snapshot lists via candidates B then C (payload values
deliberately junk: the relaxation never reads them). -/
def pktBC : Packet := ⟨"via B then C", [("B", ⟨"B", intCost 99⟩), ("C", ⟨"C", intCost 77⟩)], none⟩

/-- Converged two-node example: A and B joined by an edge of cost 1. -/
def amap : HopsMap := [("A", ⟨"A", intCost 0⟩), ("B", ⟨"B", intCost 1⟩)]

def bmap2 : HopsMap := [("B", ⟨"B", intCost 0⟩), ("A", ⟨"A", intCost 1⟩)]

def fpNet : Network := [("A", ⟨"A", amap⟩), ("B", ⟨"B", bmap2⟩)]

def fpPkt : Packet := ⟨"from B", bmap2, none⟩

/-- The spec's normalization example: network {A, B, C, D}, A's raw table
covering only {A, B, C}. -/
def selfA : Node := ⟨"A", [("A", ⟨"A", intCost 0⟩), ("B", ⟨"B", intCost 1⟩),
  ("C", ⟨"C", intCost 3⟩)]⟩

def normNet : Network := [("A", selfA), ("B", ⟨"B", []⟩), ("C", ⟨"C", []⟩), ("D", ⟨"D", []⟩)]

/-- Same key set as `pktBC`, opposite order. -/
def pktCB : Packet := ⟨"via C then B", [("C", ⟨"C", intCost 1⟩), ("B", ⟨"B", intCost 2⟩)], none⟩

/-- Same key list as `pktBC`, different payload values. -/
def pktBCother : Packet := ⟨"other values", [("B", ⟨"Q", intCost 1000⟩), ("C", ⟨"R", Cost.inf⟩)], none⟩

/-- Packet listing only B as via candidate. -/
def pktB : Packet := ⟨"via B only", [("B", ⟨"B", intCost 99⟩)], none⟩

/-- Per-entry relation between a table before and after a relaxation
phase: each entry is unchanged or strictly improved. -/
def entryShrank (m0 m1 : HopsMap) : Prop :=
  ∀ k, HopsMap.find? m1 k = HopsMap.find? m0 k ∨
    ∃ h0 h1, HopsMap.find? m0 k = some h0 ∧ HopsMap.find? m1 k = some h1 ∧
      Cost.lt h1.best_distance h0.best_distance = true

theorem frac_den_pos (a : Frac) : (0 : ℤ) < (a.den : ℤ) := by
  unfold Frac.den
  exact_mod_cast Nat.succ_pos a.den1

theorem frac_blt_trans {a b c : Frac} (h1 : a.blt b = true) (h2 : b.blt c = true) :
    a.blt c = true := by
  simp only [Frac.blt, decide_eq_true_eq] at h1 h2 ⊢
  have ha := frac_den_pos a
  have hb := frac_den_pos b
  have hc := frac_den_pos c
  have h3 : a.num * (b.den : ℤ) * (c.den : ℤ) < b.num * (a.den : ℤ) * (c.den : ℤ) :=
    mul_lt_mul_of_pos_right h1 hc
  have h4 : b.num * (c.den : ℤ) * (a.den : ℤ) < c.num * (b.den : ℤ) * (a.den : ℤ) :=
    mul_lt_mul_of_pos_right h2 ha
  have h5 : a.num * (c.den : ℤ) * (b.den : ℤ) < c.num * (a.den : ℤ) * (b.den : ℤ) := by
    nlinarith [h3, h4]
  exact lt_of_mul_lt_mul_right h5 (le_of_lt hb)

theorem frac_ble_refl (a : Frac) : a.ble a = true := by
  simp [Frac.ble]

theorem frac_ble_of_blt {a b : Frac} (h : a.blt b = true) : a.ble b = true := by
  simp only [Frac.blt, decide_eq_true_eq] at h
  simp only [Frac.ble, decide_eq_true_eq]
  exact le_of_lt h

theorem cost_lt_trans {a b c : Cost} (h1 : Cost.lt a b = true) (h2 : Cost.lt b c = true) :
    Cost.lt a c = true := by
  cases a <;> cases b <;> cases c <;> simp_all [Cost.lt]
  exact frac_blt_trans h1 h2

theorem cost_le_refl (a : Cost) : Cost.le a a = true := by
  cases a
  case fin f => exact frac_ble_refl f
  case inf => rfl

theorem cost_le_of_lt {a b : Cost} (h : Cost.lt a b = true) : Cost.le a b = true := by
  cases a <;> cases b <;> simp_all [Cost.lt, Cost.le]
  exact frac_ble_of_blt h

theorem find_set_self (m : HopsMap) (k : NodeId) (v : HopInfo) :
    HopsMap.find? (HopsMap.set m k v) k = some v := by
  induction m with
  | nil => simp [HopsMap.set, HopsMap.find?]
  | cons p rest ih =>
      obtain ⟨k', v'⟩ := p
      by_cases h : k' = k
      · subst h
        simp [HopsMap.set, HopsMap.find?]
      · simp [HopsMap.set, HopsMap.find?, h, ih]

theorem find_set_ne (m : HopsMap) (k k' : NodeId) (v : HopInfo) (h : k' ≠ k) :
    HopsMap.find? (HopsMap.set m k v) k' = HopsMap.find? m k' := by
  have hne : k ≠ k' := Ne.symm h
  induction m with
  | nil => simp [HopsMap.set, HopsMap.find?, hne]
  | cons p rest ih =>
      obtain ⟨k0, v0⟩ := p
      by_cases hk : k0 = k
      · subst hk
        simp [HopsMap.set, HopsMap.find?, hne]
      · simp [HopsMap.set, HopsMap.find?, hk, ih]

theorem mem_keys_find (m : HopsMap) (k : NodeId) (h : k ∈ HopsMap.keys m) :
    ∃ v, HopsMap.find? m k = some v := by
  induction m with
  | nil => simp [HopsMap.keys] at h
  | cons p rest ih =>
      obtain ⟨k0, v0⟩ := p
      by_cases hk : k0 = k
      · subst hk
        exact ⟨v0, by simp [HopsMap.find?]⟩
      · simp [HopsMap.keys] at h
        rcases h with h | h
        · exact absurd h.symm hk
        · obtain ⟨v, hv⟩ := ih (by simpa [HopsMap.keys] using h)
          exact ⟨v, by simp [HopsMap.find?, hk, hv]⟩

theorem find_mem_keys (m : HopsMap) (k : NodeId) (v : HopInfo)
    (h : HopsMap.find? m k = some v) : k ∈ HopsMap.keys m := by
  induction m with
  | nil => simp [HopsMap.find?] at h
  | cons p rest ih =>
      obtain ⟨k0, v0⟩ := p
      by_cases hk : k0 = k
      · subst hk
        simp [HopsMap.keys]
      · simp only [HopsMap.find?, hk, if_false] at h
        show k ∈ k0 :: HopsMap.keys rest
        exact List.mem_cons_of_mem k0 (ih h)

theorem find_none_not_mem (m : HopsMap) (k : NodeId)
    (h : HopsMap.find? m k = none) : k ∉ HopsMap.keys m := by
  intro hmem
  obtain ⟨v, hv⟩ := mem_keys_find m k hmem
  rw [h] at hv
  exact Option.noConfusion hv

theorem set_absent_append (m : HopsMap) (k : NodeId) (v : HopInfo)
    (h : k ∉ HopsMap.keys m) : HopsMap.set m k v = m ++ [(k, v)] := by
  induction m with
  | nil => simp [HopsMap.set]
  | cons p rest ih =>
      obtain ⟨k0, v0⟩ := p
      simp only [HopsMap.keys, List.map_cons, List.mem_cons] at h
      push_neg at h
      have hk : k0 ≠ k := fun hh => h.1 hh.symm
      simp [HopsMap.set, hk, ih (by simpa [HopsMap.keys] using h.2)]

theorem keys_set_mem (m : HopsMap) (k : NodeId) (v : HopInfo) (h : k ∈ HopsMap.keys m) :
    HopsMap.keys (HopsMap.set m k v) = HopsMap.keys m := by
  induction m with
  | nil => simp [HopsMap.keys] at h
  | cons p rest ih =>
      obtain ⟨k0, v0⟩ := p
      by_cases hk : k0 = k
      · subst hk
        simp [HopsMap.set, HopsMap.keys]
      · simp only [HopsMap.keys, List.map_cons, List.mem_cons] at h
        rcases h with h | h
        · exact absurd h.symm hk
        · have ih' := ih (by simpa [HopsMap.keys] using h)
          have hset : HopsMap.set ((k0, v0) :: rest) k v = (k0, v0) :: HopsMap.set rest k v := by
            simp [HopsMap.set, hk]
          rw [hset]
          show k0 :: HopsMap.keys (HopsMap.set rest k v) = k0 :: HopsMap.keys rest
          rw [ih']

theorem keys_set_absent (m : HopsMap) (k : NodeId) (v : HopInfo) (h : k ∉ HopsMap.keys m) :
    HopsMap.keys (HopsMap.set m k v) = HopsMap.keys m ++ [k] := by
  rw [set_absent_append m k v h]
  simp [HopsMap.keys]

/-- What one inner-loop step can do: leave the state alone, or overwrite
the entry of the current destination with a candidate strictly below the
`current_distance` that was read at the head of the destination's
iteration, setting `edited`. -/
theorem relaxVia_result {network : Network} {d : NodeId} {cur : Cost}
    {st st' : HopsMap × Bool} {n : NodeId}
    (h : relaxVia network d cur st n = Except.ok st') :
    st' = st ∨ ∃ hop c, Cost.lt c cur = true ∧ st' = (HopsMap.set st.1 d ⟨hop, c⟩, true) := by
  unfold relaxVia at h
  split at h
  · exact Except.noConfusion h
  · split at h
    · exact Except.noConfusion h
    · split at h
      · exact Except.noConfusion h
      · split at h
        · injection h with h
          exact Or.inl h.symm
        · split at h
          · rename_i hlt
            split at h
            · exact Except.noConfusion h
            · split at h
              · exact Except.noConfusion h
              · injection h with h
                exact Or.inr ⟨_, _, hlt, h.symm⟩
          · injection h with h
            exact Or.inl h.symm

/-- Effect of the whole inner loop on one destination: entries of other
keys are untouched, and the destination's entry is either untouched or
holds a cost strictly below the `current_distance` read at the head of
the iteration. -/
theorem relaxDest_result {network : Network} {d : NodeId} {cur : Cost}
    {st st' : HopsMap × Bool} {pk : List NodeId}
    (h : relaxDest network d cur st pk = Except.ok st') :
    (∀ k, k ≠ d → HopsMap.find? st'.1 k = HopsMap.find? st.1 k) ∧
      (HopsMap.find? st'.1 d = HopsMap.find? st.1 d ∨
        ∃ hi, HopsMap.find? st'.1 d = some hi ∧ Cost.lt hi.best_distance cur = true) := by
  induction pk generalizing st with
  | nil =>
      unfold relaxDest at h
      injection h with h
      subst h
      exact ⟨fun k _ => rfl, Or.inl rfl⟩
  | cons n ns ih =>
      unfold relaxDest at h
      split at h
      · exact Except.noConfusion h
      · rename_i stm hvia
        rcases relaxVia_result hvia with heq | ⟨hop, c, hc, heq⟩
        · subst heq
          exact ih h
        · subst heq
          obtain ⟨hoff, hd⟩ := ih h
          refine ⟨?_, ?_⟩
          · intro k hk
            rw [hoff k hk, find_set_ne st.1 d k ⟨hop, c⟩ hk]
          · rcases hd with hd | ⟨hi, hhi, hlt⟩
            · rw [hd, find_set_self]
              exact Or.inr ⟨⟨hop, c⟩, rfl, hc⟩
            · exact Or.inr ⟨hi, hhi, hlt⟩


theorem entryShrank_refl (m : HopsMap) : entryShrank m m :=
  fun _ => Or.inl rfl

theorem entryShrank_trans {a b c : HopsMap} (h1 : entryShrank a b) (h2 : entryShrank b c) :
    entryShrank a c := by
  intro k
  rcases h2 k with hbc | ⟨h0, h1', hb, hc, hlt⟩
  · rcases h1 k with hab | ⟨g0, g1, ha, hb', hlt'⟩
    · exact Or.inl (hbc.trans hab)
    · exact Or.inr ⟨g0, g1, ha, hbc.trans hb', hlt'⟩
  · rcases h1 k with hab | ⟨g0, g1, ha, hb', hlt'⟩
    · rw [hab] at hb
      exact Or.inr ⟨h0, h1', hb, hc, hlt⟩
    · rw [hb'] at hb
      injection hb with hb
      subst hb
      exact Or.inr ⟨g0, h1', ha, hc, cost_lt_trans hlt hlt'⟩

/-- The outer loop only shrinks entries: after `relaxAll`, every entry is
unchanged or holds a strictly smaller cost than before. -/
theorem relaxAll_shrank {network : Network} {pk : List NodeId}
    {st st' : HopsMap × Bool} {ds : List NodeId}
    (h : relaxAll network pk st ds = Except.ok st') :
    entryShrank st.1 st'.1 := by
  induction ds generalizing st with
  | nil =>
      unfold relaxAll at h
      injection h with h
      subst h
      exact entryShrank_refl _
  | cons d ds ih =>
      unfold relaxAll at h
      split at h
      · exact Except.noConfusion h
      · rename_i cur hcur
        split at h
        · exact Except.noConfusion h
        · rename_i stm hdest
          refine entryShrank_trans ?_ (ih h)
          obtain ⟨hoff, hd⟩ := relaxDest_result hdest
          intro k
          by_cases hk : k = d
          · subst hk
            rcases hd with hd | ⟨hi, hhi, hlt⟩
            · exact Or.inl hd
            · unfold HopsMap.distance_to at hcur
              rcases hfound : HopsMap.find? st.1 k with _ | h0
              · rw [hfound] at hcur
                exact Except.noConfusion hcur
              · rw [hfound] at hcur
                injection hcur with hcur
                subst hcur
                exact Or.inr ⟨h0, hi, rfl, hhi, hlt⟩
          · exact Or.inl (hoff k hk)

theorem distOf_some_distance (m : HopsMap) (k : NodeId) (c : Cost) (h : distOf m k = some c) :
    HopsMap.distance_to m k = Except.ok c := by
  unfold distOf at h
  unfold HopsMap.distance_to
  rcases hf : HopsMap.find? m k with _ | v
  · rw [hf] at h
    exact Option.noConfusion h
  · rw [hf] at h
    injection h with h
    exact congrArg Except.ok h

/-- At a fixed point, one inner-loop step never changes the state. -/
theorem relaxVia_fixed {network : Network} {m : HopsMap} {n d : NodeId} {c0 : Cost} {b : Bool}
    (hp : pairOk network m n = true) (hd : d ∈ HopsMap.keys m)
    (hc0 : distOf m d = some c0) :
    relaxVia network d c0 (m, b) n = Except.ok (m, b) := by
  unfold pairOk at hp
  rcases hnf : netFind? network n with _ | midway
  · rw [hnf] at hp
    exact Bool.noConfusion hp
  rcases hdn : distOf m n with _ | cn
  · rw [hnf, hdn] at hp
    exact Bool.noConfusion hp
  rw [hnf, hdn] at hp
  have hall := List.all_eq_true.mp hp d hd
  rcases hcd : distOf midway.map d with _ | cd
  · rw [hcd, hc0] at hall
    exact Bool.noConfusion hall
  rw [hcd, hc0] at hall
  have hnlt : Cost.lt (Cost.add cn cd) c0 = false := by
    simpa using hall
  unfold relaxVia netLookup
  rw [hnf]
  show (match HopsMap.distance_to m n with
    | Except.error e => Except.error e
    | Except.ok distance_to_midway =>
      match HopsMap.distance_to midway.map d with
      | Except.error e => Except.error e
      | Except.ok midway_to_node =>
        if Cost.isZero midway_to_node then Except.ok (m, b)
        else if Cost.lt (Cost.add distance_to_midway midway_to_node) c0 then
          match netLookup network d with
          | Except.error e => Except.error e
          | Except.ok destNode =>
            match HopsMap.pass_through destNode.map midway.name with
            | Except.error e => Except.error e
            | Except.ok hop =>
                Except.ok (HopsMap.set m d
                  ⟨hop, Cost.add distance_to_midway midway_to_node⟩, true)
        else Except.ok (m, b)) = Except.ok (m, b)
  rw [distOf_some_distance m n cn hdn, distOf_some_distance midway.map d cd hcd]
  dsimp only
  by_cases hz : Cost.isZero cd = true
  · rw [if_pos hz]
  · rw [if_neg hz, hnlt]
    simp

/-- At a fixed point, the whole inner loop never changes the state. -/
theorem relaxDest_fixed {network : Network} {m : HopsMap} {d : NodeId} {c0 : Cost} {b : Bool}
    {pk : List NodeId}
    (hp : ∀ n ∈ pk, pairOk network m n = true) (hd : d ∈ HopsMap.keys m)
    (hc0 : distOf m d = some c0) :
    relaxDest network d c0 (m, b) pk = Except.ok (m, b) := by
  induction pk with
  | nil => rfl
  | cons n ns ih =>
      unfold relaxDest
      rw [relaxVia_fixed (hp n (List.mem_cons_self n ns)) hd hc0]
      exact ih (fun x hx => hp x (List.mem_cons_of_mem n hx))

/-- At a fixed point, the whole outer loop never changes the state. -/
theorem relaxAll_fixed {network : Network} {m : HopsMap} {b : Bool} {pk ds : List NodeId}
    (hp : ∀ n ∈ pk, pairOk network m n = true) (hds : ∀ d ∈ ds, d ∈ HopsMap.keys m) :
    relaxAll network pk (m, b) ds = Except.ok (m, b) := by
  induction ds with
  | nil => rfl
  | cons d ds ih =>
      unfold relaxAll
      obtain ⟨v, hv⟩ := mem_keys_find m d (hds d (List.mem_cons_self d ds))
      have hdist : HopsMap.distance_to m d = Except.ok v.best_distance := by
        unfold HopsMap.distance_to
        rw [hv]
      have hdo : distOf m d = some v.best_distance := by
        unfold distOf
        rw [hv]
        rfl
      rw [hdist]
      dsimp only
      rw [relaxDest_fixed hp (hds d (List.mem_cons_self d ds)) hdo]
      exact ih (fun x hx => hds x (List.mem_cons_of_mem d hx))

theorem not_mem_find_none (m : HopsMap) (k : NodeId) (h : k ∉ HopsMap.keys m) :
    HopsMap.find? m k = none := by
  rcases hf : HopsMap.find? m k with _ | v
  · rfl
  · exact absurd (find_mem_keys m k v hf) h

/-- The normalisation fold keeps every present entry, lookup included. -/
theorem normFold_preserve (nbrs : List Node) (acc : HopsMap) (k : NodeId)
    (h : k ∈ HopsMap.keys acc) :
    k ∈ HopsMap.keys (List.foldl normStep acc nbrs) ∧
      HopsMap.find? (List.foldl normStep acc nbrs) k = HopsMap.find? acc k := by
  induction nbrs generalizing acc with
  | nil => exact ⟨h, rfl⟩
  | cons b rest ih =>
      show k ∈ HopsMap.keys (List.foldl normStep (normStep acc b) rest) ∧
        HopsMap.find? (List.foldl normStep (normStep acc b) rest) k = HopsMap.find? acc k
      rcases hb : HopsMap.find? acc b.name with _ | v
      · have hmem : b.name ∉ HopsMap.keys acc := find_none_not_mem acc b.name hb
        have hstep : normStep acc b = HopsMap.set acc b.name ⟨b.name, Cost.inf⟩ := by
          unfold normStep
          rw [hb]
        have hkne : k ≠ b.name := fun hkb => hmem (hkb ▸ h)
        have hkeys : k ∈ HopsMap.keys (HopsMap.set acc b.name ⟨b.name, Cost.inf⟩) := by
          rw [keys_set_absent acc b.name ⟨b.name, Cost.inf⟩ hmem]
          exact List.mem_append_left _ h
        have hfind : HopsMap.find? (HopsMap.set acc b.name ⟨b.name, Cost.inf⟩) k =
            HopsMap.find? acc k := find_set_ne acc b.name k ⟨b.name, Cost.inf⟩ hkne
        rw [hstep]
        obtain ⟨h1, h2⟩ := ih _ hkeys
        exact ⟨h1, h2.trans hfind⟩
      · have hstep : normStep acc b = acc := by
          unfold normStep
          rw [hb]
        rw [hstep]
        exact ih _ h

/-- The normalisation fold adds `(n, (n, inf))` for a listed missing name. -/
theorem normFold_adds (nbrs : List Node) (acc : HopsMap) (n : NodeId)
    (habs : n ∉ HopsMap.keys acc) (hex : ∃ b ∈ nbrs, b.name = n) :
    HopsMap.find? (List.foldl normStep acc nbrs) n = some ⟨n, Cost.inf⟩ := by
  induction nbrs generalizing acc with
  | nil =>
      obtain ⟨b, hb, _⟩ := hex
      exact absurd hb (List.not_mem_nil b)
  | cons b rest ih =>
      show HopsMap.find? (List.foldl normStep (normStep acc b) rest) n = some ⟨n, Cost.inf⟩
      by_cases hbn : b.name = n
      · have hfn : HopsMap.find? acc b.name = none := by
          rw [hbn]
          exact not_mem_find_none acc n habs
        have hstep : normStep acc b = HopsMap.set acc b.name ⟨b.name, Cost.inf⟩ := by
          unfold normStep
          rw [hfn]
        rw [hstep, hbn]
        have hself : HopsMap.find? (HopsMap.set acc n ⟨n, Cost.inf⟩) n = some ⟨n, Cost.inf⟩ :=
          find_set_self acc n ⟨n, Cost.inf⟩
        have hmem : n ∈ HopsMap.keys (HopsMap.set acc n ⟨n, Cost.inf⟩) :=
          find_mem_keys _ n ⟨n, Cost.inf⟩ hself
        obtain ⟨_, h2⟩ := normFold_preserve rest (HopsMap.set acc n ⟨n, Cost.inf⟩) n hmem
        exact h2.trans hself
      · have hex' : ∃ b' ∈ rest, b'.name = n := by
          obtain ⟨b', hb', hb'n⟩ := hex
          rcases List.mem_cons.mp hb' with rfl | hb'
          · exact absurd hb'n hbn
          · exact ⟨b', hb', hb'n⟩
        have habs' : n ∉ HopsMap.keys (normStep acc b) := by
          unfold normStep
          rcases hb : HopsMap.find? acc b.name with _ | v
          · rw [keys_set_absent acc b.name ⟨b.name, Cost.inf⟩ (find_none_not_mem acc b.name hb)]
            intro hmem
            rcases List.mem_append.mp hmem with hmem | hmem
            · exact habs hmem
            · exact hbn (List.mem_singleton.mp hmem).symm
          · exact habs
        exact ih _ habs' hex'

/-- The normalisation fold preserves key uniqueness. -/
theorem normFold_nodup (nbrs : List Node) (acc : HopsMap)
    (h : (HopsMap.keys acc).Nodup) :
    (HopsMap.keys (List.foldl normStep acc nbrs)).Nodup := by
  induction nbrs generalizing acc with
  | nil => exact h
  | cons b rest ih =>
      show (HopsMap.keys (List.foldl normStep (normStep acc b) rest)).Nodup
      refine ih _ ?_
      unfold normStep
      rcases hb : HopsMap.find? acc b.name with _ | v
      · have hmem : b.name ∉ HopsMap.keys acc := find_none_not_mem acc b.name hb
        rw [keys_set_absent acc b.name ⟨b.name, Cost.inf⟩ hmem]
        simp [List.nodup_append, h, hmem]
      · exact h

/-- With pairwise-distinct hop names, `_hop_from`'s linear search finds
each hop of the list itself. -/
theorem hop_find_self (l : List HopInfo) (hnd : (l.map HopInfo.next_hop).Nodup) :
    ∀ h ∈ l, l.find? (fun x => x.next_hop == h.next_hop) = some h := by
  induction l with
  | nil => intro h hmem; exact absurd hmem (List.not_mem_nil h)
  | cons a tl ih =>
      intro h hmem
      rcases List.mem_cons.mp hmem with rfl | hmem
      · exact List.find?_cons_of_pos _ (by simp)
      · have hnd0 : (HopInfo.next_hop a :: tl.map HopInfo.next_hop).Nodup := by
          simpa only [List.map_cons] using hnd
        have hnd' := List.nodup_cons.mp hnd0
        have hne : a.next_hop ≠ h.next_hop := by
          intro hcontra
          exact hnd'.1 (hcontra ▸ List.mem_map_of_mem HopInfo.next_hop hmem)
        rw [List.find?_cons_of_neg _ (by simp [hne])]
        exact ih hnd'.2 h hmem

/-- The comprehension fold appends one entry per hop, in order, when every
`_hop_from` lookup returns that hop and the keys are fresh and distinct. -/
theorem hops_insert_appends (full : List HopInfo) :
    ∀ (todo : List HopInfo) (acc : HopsMap),
      (∀ h ∈ todo, _hop_from h.next_hop full = Except.ok h) →
      (∀ h ∈ todo, h.next_hop ∉ HopsMap.keys acc) →
      (todo.map HopInfo.next_hop).Nodup →
      hops_map_insert full acc todo =
        Except.ok (acc ++ todo.map (fun h => (h.next_hop, h))) := by
  intro todo
  induction todo with
  | nil => intro acc _ _ _; simp [hops_map_insert]
  | cons hop rest ih =>
      intro acc hfrom habs hnd
      unfold hops_map_insert
      rw [hfrom hop (List.mem_cons_self hop rest)]
      dsimp only
      have habs0 : hop.next_hop ∉ HopsMap.keys acc := habs hop (List.mem_cons_self hop rest)
      have hnd0 : (HopInfo.next_hop hop :: rest.map HopInfo.next_hop).Nodup := by
        simpa only [List.map_cons] using hnd
      have hnd' := List.nodup_cons.mp hnd0
      have habs' : ∀ h ∈ rest, h.next_hop ∉
          HopsMap.keys (HopsMap.set acc hop.next_hop hop) := by
        intro h hmem
        rw [keys_set_absent acc hop.next_hop hop habs0]
        intro hin
        rcases List.mem_append.mp hin with hin | hin
        · exact habs h (List.mem_cons_of_mem hop hmem) hin
        · have : h.next_hop = hop.next_hop := List.mem_singleton.mp hin
          exact hnd'.1 (this ▸ List.mem_map_of_mem HopInfo.next_hop hmem)
      rw [ih (HopsMap.set acc hop.next_hop hop)
        (fun h hmem => hfrom h (List.mem_cons_of_mem hop hmem)) habs' hnd'.2]
      rw [set_absent_append acc hop.next_hop hop habs0]
      simp

theorem list_get_set_self {α : Type} (l : List α) (n : Nat) (a b : α)
    (h : l.get? n = some b) : (l.set n a).get? n = some a := by
  induction l generalizing n with
  | nil => simp [List.get?] at h
  | cons x xs ih =>
      cases n with
      | zero => rfl
      | succ n =>
          show (xs.set n a).get? n = some a
          exact ih n h


/-- C3: relax at a fixed point is the identity.  If for every destination
`d` of the local table and every via candidate `n` of the snapshot the
two-leg cost `toVia + viaToDest` is not below the recorded distance (and
the involved lookups all resolve, which is what `isFixedPoint` checks),
then `update_table` returns the table unchanged with `edited = false`. -/
theorem update_table_fixed_point (network : Network) (m : HopsMap) (packet : Packet)
    (hfp : isFixedPoint network m (HopsMap.keys packet.content) = true) :
    update_table network m packet = Except.ok (m, false) := by
  unfold update_table
  exact relaxAll_fixed (List.all_eq_true.mp hfp) (fun d hd => hd)

/-- C3 witness: the converged two-node network is a fixed point and
relaxing A's table against B's snapshot changes nothing. -/
theorem update_table_fixed_point_witness :
    isFixedPoint fpNet amap (HopsMap.keys fpPkt.content) = true ∧
      update_table fpNet amap fpPkt = Except.ok (amap, false) :=
  ⟨rfl, update_table_fixed_point fpNet amap fpPkt rfl⟩

/-- C4: a relaxation pair whose `viaToDest` is zero is skipped — the
per-pair step returns the state unchanged, whatever the candidate sum
would have been. -/
theorem relaxVia_zero_via_skipped (network : Network) (d : NodeId) (cur : Cost)
    (st : HopsMap × Bool) (n : NodeId) (midway : Node) (cn cd : Cost)
    (hnet : netLookup network n = Except.ok midway)
    (hcn : HopsMap.distance_to st.1 n = Except.ok cn)
    (hcd : HopsMap.distance_to midway.map d = Except.ok cd)
    (hz : Cost.isZero cd = true) :
    relaxVia network d cur st n = Except.ok st := by
  unfold relaxVia
  rw [hnet]
  dsimp only
  rw [hcn]
  dsimp only
  rw [hcd]
  dsimp only
  rw [if_pos hz]

/-- C4 witness: in the four-node example, the pair (via B, destination B)
has `viaToDest = 0` and leaves X's state untouched. -/
theorem relaxVia_zero_via_skipped_witness :
    netLookup exNet "B" = Except.ok ⟨"B", bmap⟩ ∧
      HopsMap.distance_to xmap "B" = Except.ok (intCost 2) ∧
      HopsMap.distance_to bmap "B" = Except.ok (intCost 0) ∧
      Cost.isZero (intCost 0) = true ∧
      relaxVia exNet "B" (intCost 2) (xmap, false) "B" = Except.ok (xmap, false) :=
  ⟨rfl, rfl, rfl, rfl,
    relaxVia_zero_via_skipped exNet "B" (intCost 2) (xmap, false) "B" ⟨"B", bmap⟩
      (intCost 2) (intCost 0) rfl rfl rfl rfl⟩

/-- C10: one invocation of the relaxation is monotone non-increasing on
stored distances — every destination present before is present after,
with a distance less than or equal to the one recorded at entry. -/
theorem update_table_distances_nonincreasing (network : Network) (m : HopsMap)
    (packet : Packet) (m' : HopsMap) (e : Bool)
    (h : update_table network m packet = Except.ok (m', e))
    (d : NodeId) (h0 : HopInfo) (hm : HopsMap.find? m d = some h0) :
    ∃ h1, HopsMap.find? m' d = some h1 ∧
      Cost.le h1.best_distance h0.best_distance = true := by
  unfold update_table at h
  have hs := relaxAll_shrank h
  rcases hs d with heq | ⟨g0, g1, hg0, hg1, hlt⟩
  · rw [hm] at heq
    exact ⟨h0, heq, cost_le_refl _⟩
  · rw [hm] at hg0
    injection hg0 with hg0
    subst hg0
    exact ⟨g1, hg1, cost_le_of_lt hlt⟩

/-- C10 witness: in the four-node run the D entry drops from 10 to 5 and
every other entry is unchanged; the theorem instance at destination D. -/
theorem update_table_distances_nonincreasing_witness :
    HopsMap.find? xmap "D" = some ⟨"D", intCost 10⟩ ∧
      ∃ h1, HopsMap.find? [("X", (⟨"X", intCost 0⟩ : HopInfo)), ("B", ⟨"B", intCost 2⟩),
          ("C", ⟨"C", intCost 1⟩), ("D", ⟨"B", intCost 5⟩)] "D" = some h1 ∧
        Cost.le h1.best_distance (intCost 10) = true :=
  ⟨rfl, update_table_distances_nonincreasing exNet xmap pktB
    [("X", ⟨"X", intCost 0⟩), ("B", ⟨"B", intCost 2⟩),
      ("C", ⟨"C", intCost 1⟩), ("D", ⟨"B", intCost 5⟩)] true rfl "D" ⟨"D", intCost 10⟩ rfl⟩

/-- C1 counterexample: with snapshot keys [B] the invocation stores
D ↦ (B, 5); with snapshot keys [B, C] — same table, same registry — the
later via-C candidate costs 1 + 4 = 5, exactly the distance just stored
through B, yet it overwrites the entry to D ↦ (C, 5).  The working
`current_distance` is not refreshed after a write, so an equal-cost
alternative path does replace the existing next hop, contradicting the
claim. -/
theorem update_table_equal_cost_replaces_hop :
    (update_table exNet xmap pktB).map (fun st => HopsMap.find? st.1 "D") =
      Except.ok (some ⟨"B", intCost 5⟩) ∧
    (update_table exNet xmap pktBC).map (fun st => HopsMap.find? st.1 "D") =
      Except.ok (some ⟨"C", intCost 5⟩) ∧
    Cost.beq (Cost.add (intCost 1) (intCost 4)) (intCost 5) = true :=
  ⟨rfl, rfl, rfl⟩

/-- C1 (amended): `current_distance` is read once at the head of each
destination's iteration and never updated afterwards, so every applied
candidate is compared against the distance recorded at entry, not against
the latest write.  Consequently a changed entry always ends strictly
below its pre-invocation distance (and a candidate merely equal to the
entry distance never changes the entry) — but an alternative whose cost
equals a distance stored earlier in the same invocation can still replace
the next hop. -/
theorem update_table_changed_entry_strictly_improves (network : Network) (m : HopsMap)
    (packet : Packet) (m' : HopsMap) (e : Bool)
    (h : update_table network m packet = Except.ok (m', e))
    (d : NodeId) (h0 h1 : HopInfo)
    (hm : HopsMap.find? m d = some h0) (hm' : HopsMap.find? m' d = some h1)
    (hne : h1 ≠ h0) : Cost.lt h1.best_distance h0.best_distance = true := by
  unfold update_table at h
  have hs := relaxAll_shrank h
  rcases hs d with heq | ⟨g0, g1, hg0, hg1, hlt⟩
  · rw [heq, hm] at hm'
    injection hm' with hm'
    exact absurd hm'.symm hne
  · rw [hm] at hg0
    injection hg0 with hg0
    rw [hm'] at hg1
    injection hg1 with hg1
    rw [hg1, hg0]
    exact hlt

/-- C1 witness: the changed D entry of the [B, C] run, (C, 5), is strictly
below the entry distance 10. -/
theorem update_table_changed_entry_strictly_improves_witness :
    HopsMap.find? xmap "D" = some ⟨"D", intCost 10⟩ ∧
      Cost.lt (intCost 5) (intCost 10) = true :=
  ⟨rfl, update_table_changed_entry_strictly_improves exNet xmap pktBC
    [("X", ⟨"X", intCost 0⟩), ("B", ⟨"B", intCost 2⟩),
      ("C", ⟨"C", intCost 1⟩), ("D", ⟨"C", intCost 5⟩)] true rfl
    "D" ⟨"D", intCost 10⟩ ⟨"C", intCost 5⟩ rfl rfl (by decide)⟩

/-- C5 counterexample: two packets whose snapshots hold the same SET of
destination keys, in different insertion order, produce different
resulting tables (next hop B versus C for destination D), because the
relaxation iterates the snapshot's key sequence and the stale
`current_distance` lets a later equal-cost candidate overwrite. -/
theorem update_table_key_order_sensitive :
    List.Perm (HopsMap.keys pktBC.content) (HopsMap.keys pktCB.content) ∧
    (update_table exNet xmap pktBC).map (fun st => HopsMap.find? st.1 "D") =
      Except.ok (some ⟨"C", intCost 5⟩) ∧
    (update_table exNet xmap pktCB).map (fun st => HopsMap.find? st.1 "D") =
      Except.ok (some ⟨"B", intCost 5⟩) ∧
    (⟨"C", intCost 5⟩ : HopInfo) ≠ ⟨"B", intCost 5⟩ :=
  ⟨by decide, rfl, rfl, by decide⟩

/-- C5 (amended): the relaxation reads nothing from the packet except the
sequence of its snapshot's keys — two packets with the same key list (in
order) yield identical results whatever cost values their snapshots
carry; the registry's live tables supply every cost. -/
theorem update_table_depends_only_on_packet_keys (network : Network) (m : HopsMap)
    (p1 p2 : Packet) (h : HopsMap.keys p1.content = HopsMap.keys p2.content) :
    update_table network m p1 = update_table network m p2 := by
  unfold update_table
  rw [h]

/-- C5 witness: the packets with payload values (B, 99), (C, 77) and
(Q, 1000), (R, inf) under the same key list give identical runs. -/
theorem update_table_depends_only_on_packet_keys_witness :
    HopsMap.keys pktBC.content = HopsMap.keys pktBCother.content ∧
      update_table exNet xmap pktBC = update_table exNet xmap pktBCother :=
  ⟨rfl, update_table_depends_only_on_packet_keys exNet xmap pktBC pktBCother rfl⟩

/-- C2 counterexample: `dummy_packet` stores the sender's table reference
(index 0 of the store) without copying.  After the sender lowers its D
entry from 5 to 3, reading the already-built packet's content shows the
new value — the packet does not carry an immutable snapshot. -/
theorem dummy_packet_aliases_sender_table :
    (dummy_packet "X" 0 0).content = 0 ∧
    Store.readMap ⟨[[("D", ⟨"D", intCost 5⟩)]]⟩ (dummy_packet "X" 0 0).content =
      some [("D", ⟨"D", intCost 5⟩)] ∧
    Store.readMap (Store.setEntry ⟨[[("D", ⟨"D", intCost 5⟩)]]⟩ 0 "D" ⟨"D", intCost 3⟩)
        (dummy_packet "X" 0 0).content =
      some [("D", ⟨"D", intCost 3⟩)] ∧
    ([("D", (⟨"D", intCost 3⟩ : HopInfo))] : HopsMap) ≠ [("D", ⟨"D", intCost 5⟩)] :=
  ⟨rfl, rfl, rfl, by decide⟩

/-- C2 (amended): the packet built by `dummy_packet` holds the sender's
live table reference, not a copy: its content is exactly the sender's map
reference, and any later assignment into the sender's table is visible
through the packet.  (Cross-process receivers observe a frozen copy only
because the manager queue pickles the packet at enqueue time — an
infrastructure effect, not a property of the packet construction, which
the claim attributes it to.) -/
theorem dummy_packet_content_tracks_live_table (st : Store) (r : Nat) (name : NodeId)
    (t : Nat) (k : NodeId) (v : HopInfo) (m : HopsMap)
    (h : Store.readMap st r = some m) :
    (dummy_packet name t r).content = r ∧
    Store.readMap (Store.setEntry st r k v) (dummy_packet name t r).content =
      some (HopsMap.set m k v) := by
  refine ⟨rfl, ?_⟩
  unfold Store.readMap at h
  unfold Store.setEntry
  rw [h]
  exact list_get_set_self st.maps r (HopsMap.set m k v) m h

/-- C2 witness: the amended statement at the one-map store. -/
theorem dummy_packet_content_tracks_live_table_witness :
    Store.readMap ⟨[[("D", ⟨"D", intCost 5⟩)]]⟩ 0 = some [("D", ⟨"D", intCost 5⟩)] ∧
    Store.readMap (Store.setEntry ⟨[[("D", ⟨"D", intCost 5⟩)]]⟩ 0 "D" ⟨"D", intCost 3⟩)
        (dummy_packet "X" 7 0).content =
      some (HopsMap.set [("D", ⟨"D", intCost 5⟩)] "D" ⟨"D", intCost 3⟩) :=
  ⟨rfl, (dummy_packet_content_tracks_live_table ⟨[[("D", ⟨"D", intCost 5⟩)]]⟩ 0 "X" 7 "D"
    ⟨"D", intCost 3⟩ [("D", ⟨"D", intCost 5⟩)] rfl).2⟩

/-- C6: `normalised` inserts `(name, (name, inf))` for every network node
not yet present as a destination, leaves every pre-existing entry exactly
as it was, and afterwards the table holds exactly one entry per network
node.  The self entry must already be present (the node itself is
excluded from `neighbours`); the seeding of `from_links` always places
it. -/
theorem normalised_totalizes (self : Node) (network : Network)
    (hself : self.name ∈ HopsMap.keys self.map)
    (hnd : (HopsMap.keys self.map).Nodup) :
    (∀ node ∈ network.map Prod.snd, node.name ∉ HopsMap.keys self.map →
        HopsMap.find? (normalised self network).map node.name =
          some ⟨node.name, Cost.inf⟩) ∧
    (∀ k ∈ HopsMap.keys self.map,
        HopsMap.find? (normalised self network).map k = HopsMap.find? self.map k) ∧
    (HopsMap.keys (normalised self network).map).Nodup ∧
    (∀ node ∈ network.map Prod.snd,
        node.name ∈ HopsMap.keys (normalised self network).map) := by
  have hmap : (normalised self network).map =
      List.foldl normStep self.map (neighbours self network) := rfl
  have hnbr : ∀ node ∈ network.map Prod.snd, node.name ∉ HopsMap.keys self.map →
      node ∈ neighbours self network := by
    intro node hmem habs
    unfold neighbours
    apply List.mem_filter.mpr
    refine ⟨hmem, ?_⟩
    simp only [decide_eq_true_eq]
    intro hcontra
    exact habs (hcontra ▸ hself)
  refine ⟨?_, ?_, ?_, ?_⟩
  · intro node hmem habs
    rw [hmap]
    exact normFold_adds _ _ _ habs ⟨node, hnbr node hmem habs, rfl⟩
  · intro k hk
    rw [hmap]
    exact (normFold_preserve _ _ k hk).2
  · rw [hmap]
    exact normFold_nodup _ _ hnd
  · intro node hmem
    rw [hmap]
    by_cases hin : node.name ∈ HopsMap.keys self.map
    · exact (normFold_preserve _ _ node.name hin).1
    · exact find_mem_keys _ _ _
        (normFold_adds _ _ _ hin ⟨node, hnbr node hmem hin, rfl⟩)


/-- C6 witness: normalize adds D ↦ (D, inf) to A's table and keeps the
existing B entry. -/
theorem normalised_totalizes_witness :
    ("A" : NodeId) ∈ HopsMap.keys selfA.map ∧ (HopsMap.keys selfA.map).Nodup ∧
    HopsMap.find? (normalised selfA normNet).map "D" = some ⟨"D", Cost.inf⟩ ∧
    HopsMap.find? (normalised selfA normNet).map "B" = some ⟨"B", intCost 1⟩ := by
  refine ⟨by decide, by decide, ?_, ?_⟩
  · exact (normalised_totalizes selfA normNet (by decide) (by decide)).1
      ⟨"D", []⟩ (by decide) (by decide)
  · exact ((normalised_totalizes selfA normNet (by decide) (by decide)).2.1
      "B" (by decide)).trans rfl

/-- C7: with pairwise-distinct neighbor names none of which equals the
node's own name, the table `from_links` builds from the seeded hops list
`[HopInfo(name, 0.0)] + hs` is exactly the self entry followed by one
entry per neighbor hop, in list (file) order. -/
theorem from_links_table_seeding (name : NodeId) (hs : List HopInfo)
    (hnotin : name ∉ hs.map HopInfo.next_hop)
    (hnd : (hs.map HopInfo.next_hop).Nodup) :
    hops_map_of (⟨name, intCost 0⟩ :: hs) =
      Except.ok ((name, ⟨name, intCost 0⟩) ::
        hs.map (fun h => (h.next_hop, h))) := by
  have hfullnd : ((⟨name, intCost 0⟩ :: hs : List HopInfo).map HopInfo.next_hop).Nodup := by
    simp only [List.map_cons]
    exact List.nodup_cons.mpr ⟨hnotin, hnd⟩
  have hfrom : ∀ h ∈ (⟨name, intCost 0⟩ :: hs : List HopInfo),
      _hop_from h.next_hop (⟨name, intCost 0⟩ :: hs) = Except.ok h := by
    intro h hmem
    unfold _hop_from
    rw [hop_find_self _ hfullnd h hmem]
  have := hops_insert_appends (⟨name, intCost 0⟩ :: hs) (⟨name, intCost 0⟩ :: hs) []
    hfrom (by intro h _; simp [HopsMap.keys]) hfullnd
  unfold hops_map_of
  rw [this]
  simp

/-- C7 witness: parsing the link line `"A (B,1.0) (C,2.5)"` and building
the node yields the claimed table — `(10, 9)` and `(25, 9)` are the
parser's fraction representations of the float values 1.0 and 2.5, as the
`Cost.beq` conjuncts certify. -/
theorem from_links_table_seeding_witness :
    parse_links ["A (B,1.0) (C,2.5)"] =
      Except.ok [("A", [⟨"A", intCost 0⟩, ⟨"B", Cost.fin ⟨10, 9⟩⟩, ⟨"C", Cost.fin ⟨25, 9⟩⟩])] ∧
    Cost.beq (Cost.fin ⟨10, 9⟩) (intCost 1) = true ∧
    Cost.beq (Cost.fin ⟨25, 9⟩) (Cost.fin ⟨5, 1⟩) = true ∧
    hops_map_of [⟨"A", intCost 0⟩, ⟨"B", Cost.fin ⟨10, 9⟩⟩, ⟨"C", Cost.fin ⟨25, 9⟩⟩] =
      Except.ok [("A", ⟨"A", intCost 0⟩), ("B", ⟨"B", Cost.fin ⟨10, 9⟩⟩),
        ("C", ⟨"C", Cost.fin ⟨25, 9⟩⟩)] :=
  ⟨rfl, rfl, rfl,
    from_links_table_seeding "A" [⟨"B", Cost.fin ⟨10, 9⟩⟩, ⟨"C", Cost.fin ⟨25, 9⟩⟩]
      (by decide) (by decide)⟩

/-- C8: looking up a destination absent from a table fails with the
distinguishable key error carrying that destination (`distance_to` and
`pass_through` alike), and when the relaxation references a via node
absent from the registry the same error propagates out of the whole
`update_table` invocation — it is surfaced, not swallowed.  (The code
raises Python's builtin KeyError; `UnknownDestinationError` is the spec's
design name for this failure.) -/
theorem absent_lookup_raises_key_error :
    (∀ (m : HopsMap) (k : NodeId), HopsMap.find? m k = none →
      HopsMap.distance_to m k = Except.error (KeyError.mk k) ∧
      HopsMap.pass_through m k = Except.error (KeyError.mk k)) ∧
    (∀ (network : Network) (d : NodeId) (h0 : HopInfo) (rest : HopsMap) (packet : Packet)
        (n : NodeId) (ns : List NodeId),
      HopsMap.keys packet.content = n :: ns → netFind? network n = none →
      update_table network ((d, h0) :: rest) packet = Except.error (KeyError.mk n)) := by
  constructor
  · intro m k h
    constructor
    · unfold HopsMap.distance_to
      rw [h]
    · unfold HopsMap.pass_through
      rw [h]
  · intro network d h0 rest packet n ns hkeys hnf
    unfold update_table
    rw [hkeys]
    show relaxAll network (n :: ns) ((d, h0) :: rest, false) (d :: HopsMap.keys rest) =
      Except.error (KeyError.mk n)
    have hdist : HopsMap.distance_to ((d, h0) :: rest) d = Except.ok h0.best_distance := by
      simp [HopsMap.distance_to, HopsMap.find?]
    have hvia : relaxVia network d h0.best_distance ((d, h0) :: rest, false) n =
        Except.error (KeyError.mk n) := by
      unfold relaxVia netLookup
      rw [hnf]
    have hdest : relaxDest network d h0.best_distance ((d, h0) :: rest, false) (n :: ns) =
        Except.error (KeyError.mk n) := by
      unfold relaxDest
      rw [hvia]
    unfold relaxAll
    rw [hdist]
    dsimp only
    rw [hdest]

/-- C8 witness: the empty table rejects any lookup with the key error,
and a packet whose snapshot lists the unknown node Z aborts the whole
relaxation with KeyError "Z". -/
theorem absent_lookup_raises_key_error_witness :
    HopsMap.find? ([] : HopsMap) "Q" = none ∧
    HopsMap.distance_to ([] : HopsMap) "Q" = Except.error (KeyError.mk "Q") ∧
    netFind? ([] : Network) "Z" = none ∧
    update_table ([] : Network) [("D", ⟨"D", intCost 0⟩)]
        ⟨"p", [("Z", ⟨"Z", intCost 1⟩)], none⟩ = Except.error (KeyError.mk "Z") :=
  ⟨rfl, (absent_lookup_raises_key_error.1 [] "Q" rfl).1, rfl,
    absent_lookup_raises_key_error.2 [] "D" ⟨"D", intCost 0⟩ []
      ⟨"p", [("Z", ⟨"Z", intCost 1⟩)], none⟩ "Z" [] rfl rfl⟩

/-- C9 counterexample: `HopInfo` construction performs no validation —
parsing the token `"(B,-1.0)"` succeeds and builds a hop record whose
cost (-1.0, here the fraction -10/10) is strictly negative and not
infinite, contradicting the claim that construction validates the cost as
non-negative or explicitly infinite.  (The raised error type is Python's
builtin ValueError; the code defines no MalformedHopError either.) -/
theorem hop_construction_accepts_negative_cost :
    HopInfo.parse_str "(B,-1.0)" = Except.ok ⟨"B", Cost.fin ⟨-10, 9⟩⟩ ∧
    Cost.lt (Cost.fin ⟨-10, 9⟩) (intCost 0) = true ∧
    Cost.fin ⟨-10, 9⟩ ≠ Cost.inf :=
  ⟨rfl, rfl, by decide⟩

/-- C9 (amended): construction validates nothing — whatever cost the
float parser accepts, negative included, is stored as-is — and parsing
`"(name,cost)"` fails (with Python's ValueError; no MalformedHopError
exists in the code) exactly when the stripped payload does not split into
two comma-separated fields or the cost field is not numeric. -/
theorem parse_str_failure_characterisation (source : String) :
    ((∃ h, HopInfo.parse_str source = Except.ok h) ↔
      (∃ hop distance c, pySplit ',' (pyStrip (pySlice1m1 source)) = [hop, distance] ∧
        parseFloat distance = some c)) ∧
    (∀ hop distance c, pySplit ',' (pyStrip (pySlice1m1 source)) = [hop, distance] →
      parseFloat distance = some c → HopInfo.parse_str source = Except.ok ⟨hop, c⟩) := by
  have hbuild : ∀ hop distance c, pySplit ',' (pyStrip (pySlice1m1 source)) = [hop, distance] →
      parseFloat distance = some c → HopInfo.parse_str source = Except.ok ⟨hop, c⟩ := by
    intro hop distance c hsp hpf
    unfold HopInfo.parse_str
    rw [hsp]
    dsimp only
    rw [hpf]
  refine ⟨⟨?_, ?_⟩, hbuild⟩
  · rintro ⟨h, hok⟩
    unfold HopInfo.parse_str at hok
    rcases hsp : pySplit ',' (pyStrip (pySlice1m1 source)) with _ | ⟨a, _ | ⟨b, _ | ⟨c2, tl3⟩⟩⟩
    · rw [hsp] at hok
      exact Except.noConfusion hok
    · rw [hsp] at hok
      exact Except.noConfusion hok
    · rw [hsp] at hok
      dsimp only at hok
      rcases hpf : parseFloat b with _ | c
      · rw [hpf] at hok
        exact Except.noConfusion hok
      · exact ⟨a, b, c, rfl, hpf⟩
    · rw [hsp] at hok
      exact Except.noConfusion hok
  · rintro ⟨hop, distance, c, hsp, hpf⟩
    exact ⟨⟨hop, c⟩, hbuild hop distance c hsp hpf⟩

/-- C9 witness: the characterisation applied to the well-formed token
`"(B,1.0)"`. -/
theorem parse_str_failure_characterisation_witness :
    pySplit ',' (pyStrip (pySlice1m1 "(B,1.0)")) = ["B", "1.0"] ∧
    parseFloat "1.0" = some (Cost.fin ⟨10, 9⟩) ∧
    HopInfo.parse_str "(B,1.0)" = Except.ok ⟨"B", Cost.fin ⟨10, 9⟩⟩ :=
  ⟨rfl, rfl, (parse_str_failure_characterisation "(B,1.0)").2 "B" "1.0"
    (Cost.fin ⟨10, 9⟩) rfl rfl⟩
